import Mathlib

/-!
Verification model of the athlete-dashboard application (`app.py`).

Conventions of the shallow embedding:
* Python strings are Lean `String`s; character-level work happens on `String.data`
  (`List Char`), and `splitChar` models Python's `str.split` with a one-character
  separator (every occurrence splits, empty fields are kept).
* Python floats are modelled as rationals (`ℚ`); the finite range and rounding of
  IEEE doubles are below the granularity of the specification.
* A nullable value (Python `None`, an absent form field, a NULL column) is an
  `Option`.  Form fields that the code parses with `float(...)`—falling back to
  `0` on failure—are modelled as already-parsed `Option ℚ` where `none` covers
  both a missing field and an unparseable one.
* Python `int(...)` on a string is modelled as an optional sign followed by
  decimal digits (whitespace/underscore/unicode-digit forms are not modelled).
* `datetime.strptime` with the formats `%Y-%m-%d` and `%m-%Y` is modelled by
  `parseYMD` and `strptime_mY`: `%Y` is exactly four digits, `%m`/`%d` one or two
  digits in range, and the resulting date must be a valid calendar date with
  year at least 1.
-/

/-- Python `s.split(sep)` for a single-character separator, on the character
list of the string: splits at every occurrence, keeping empty fields. -/
def splitChar (sep : Char) : List Char → List String
  | [] => [""]
  | c :: rest =>
    match splitChar sep rest with
    | [] => [""]
    | hd :: tl =>
      if c = sep then "" :: hd :: tl
      else String.mk (c :: hd.data) :: tl

/-- Value of a list of decimal digit characters, most significant first. -/
def digitsToNat (l : List Char) : ℕ :=
  l.foldl (fun acc c => acc * 10 + (c.toNat - 48)) 0

/-- Python `int(s)`: optional sign then decimal digits. -/
def parseIntChars : List Char → Option ℤ
  | [] => none
  | '-' :: rest =>
    if rest ≠ [] ∧ rest.all Char.isDigit then some (-(digitsToNat rest : ℤ)) else none
  | '+' :: rest =>
    if rest ≠ [] ∧ rest.all Char.isDigit then some (digitsToNat rest : ℤ) else none
  | l =>
    if l.all Char.isDigit then some (digitsToNat l : ℤ) else none

/-- Python `int(s)` on a string. -/
def parseIntStr (s : String) : Option ℤ := parseIntChars s.data

/-- Python `int(x)` on a number: truncation toward zero. -/
def itrunc (q : ℚ) : ℤ := if 0 ≤ q then ⌊q⌋ else ⌈q⌉

/-- Decimal digits, fuel-based so that the recursion is structural (any fuel
above the digit count gives the same answer). -/
def natDigitsAux : ℕ → ℕ → List Char
  | 0, _ => []
  | fuel + 1, n =>
    if n < 10 then [Char.ofNat (48 + n)]
    else natDigitsAux fuel (n / 10) ++ [Char.ofNat (48 + n % 10)]

/-- Decimal digits of a natural number, most significant first. -/
def natDigits (n : ℕ) : List Char := natDigitsAux (n + 1) n

/-- Decimal representation of an integer, sign included. -/
def intDigits (i : ℤ) : List Char :=
  if i < 0 then '-' :: natDigits i.natAbs else natDigits i.toNat

/-- Python's width-2 zero padding (`f"{x:02d}"`) at the character level. -/
def pad2 (l : List Char) : List Char :=
  if l.length < 2 then '0' :: l else l

/-- `f"{i:02d}"` for an integer. -/
def format02 (i : ℤ) : String := String.mk (pad2 (intDigits i))

/-- `strftime` zero-padded two-digit field (`%d`, `%m`). -/
def fmt2 (n : ℕ) : List Char := pad2 (natDigits n)

/-- `strftime` `%Y`: four-digit zero-padded year. -/
def fmt4 (n : ℕ) : List Char :=
  List.replicate (4 - (natDigits n).length) '0' ++ natDigits n

/-- `parsed.strftime("%d-%m-%Y")`. -/
def fmtDate (d m y : ℕ) : String := String.mk (fmt2 d ++ '-' :: fmt2 m ++ '-' :: fmt4 y)

/-- `parsed.strftime("%m-%Y")`. -/
def fmtMY (m y : ℕ) : String := String.mk (fmt2 m ++ '-' :: fmt4 y)

/-- `get_month_year` from `app.py`: extract `MM-YYYY` from a `DD-MM-YYYY`
string, `None` on a falsy input or a wrong part count. -/
def get_month_year (date_str : Option String) : Option String :=
  match date_str with
  | none => none
  | some s =>
    if s.data = [] then none
    else
      match splitChar '-' s.data with
      | [_, p1, p2] => some (String.mk (p1.data ++ '-' :: p2.data))
      | _ => none

/-- The time-parsing phase of `calculate_pace`: total elapsed minutes
`hours*60 + minutes + seconds/60` from a `HH:MM:SS` string (or
`minutes + seconds/60` from a `MM:SS` one), `none` on any other part count
or a part that is not an integer. -/
def totalMinutes (ts : String) : Option ℚ :=
  match splitChar ':' ts.data with
  | [hs, ms, ss] =>
    match parseIntChars hs.data, parseIntChars ms.data, parseIntChars ss.data with
    | some h, some m, some s => some ((h : ℚ) * 60 + (m : ℚ) + (s : ℚ) / 60)
    | _, _, _ => none
  | [ms, ss] =>
    match parseIntChars ms.data, parseIntChars ss.data with
    | some m, some s => some ((m : ℚ) + (s : ℚ) / 60)
    | _, _ => none
  | _ => none

/-- The formatting tail of `calculate_pace` (lines 66–70 of `app.py`):
truncated minutes-per-km and truncated fractional part times 60, each
formatted `{:02d}`, joined by `:`. -/
def paceOut (total dk : ℚ) : String :=
  let pm : ℚ := total / dk
  let mins : ℤ := itrunc pm
  let secs : ℤ := itrunc ((pm - (mins : ℚ)) * 60)
  String.mk (pad2 (intDigits mins) ++ ':' :: pad2 (intDigits secs))

/-- `calculate_pace` from `app.py`: pace in `MM:SS` per km from distance and a
`HH:MM:SS` or `MM:SS` time string; `None` on any malformed input. -/
def calculate_pace (distance_km : Option ℚ) (time_str : Option String) : Option String :=
  match distance_km, time_str with
  | none, _ => none
  | _, none => none
  | some dk, some ts =>
    if dk ≤ 0 ∨ ts.data = [] then none
    else
      match totalMinutes ts with
      | some total => some (paceOut total dk)
      | none => none

/-- A 1-or-2 digit field of `strptime` (`%m`, `%d`): digits with a value bound,
at least the given minimum. -/
def parseField2 (l : List Char) (lo hi : ℕ) : Option ℕ :=
  if l ≠ [] ∧ l.length ≤ 2 ∧ l.all Char.isDigit ∧ lo ≤ digitsToNat l ∧ digitsToNat l ≤ hi
  then some (digitsToNat l) else none

/-- `strptime` `%Y`: exactly four digits, and the year of a valid
`datetime` is at least 1. -/
def parseYear (l : List Char) : Option ℕ :=
  if l.length = 4 ∧ l.all Char.isDigit ∧ 1 ≤ digitsToNat l
  then some (digitsToNat l) else none

/-- Gregorian leap year, as `datetime` checks it. -/
def isLeap (y : ℕ) : Bool := y % 4 = 0 ∧ (y % 100 ≠ 0 ∨ y % 400 = 0)

/-- Days in a month, as `datetime` validates day-of-month. -/
def daysInMonth (y m : ℕ) : ℕ :=
  if m = 2 then (if isLeap y then 29 else 28)
  else if m = 4 ∨ m = 6 ∨ m = 9 ∨ m = 11 then 30 else 31

/-- `dt.datetime.strptime(s, "%Y-%m-%d")`: result `(year, month, day)`,
`none` on any parse or calendar-validity failure. -/
def parseYMD (s : String) : Option (ℕ × ℕ × ℕ) :=
  match splitChar '-' s.data with
  | [ys, ms, ds] =>
    match parseYear ys.data, parseField2 ms.data 1 12, parseField2 ds.data 1 31 with
    | some y, some m, some d =>
      if d ≤ daysInMonth y m then some (y, m, d) else none
    | _, _, _ => none
  | _ => none

/-- `dt.datetime.strptime(s, "%m-%Y")` (used to sort month keys): result
`(year, month)` so that comparison of the parsed `datetime`s is
lexicographic on this pair. -/
def strptime_mY (s : String) : Option (ℕ × ℕ) :=
  match splitChar '-' s.data with
  | [ms, ys] =>
    match parseField2 ms.data 1 12, parseYear ys.data with
    | some m, some y => some (y, m)
    | _, _ => none
  | _ => none

/-- A row of the `Athlete_Data` table; every non-key column is nullable. -/
structure Record where
  id : ℕ
  date : Option String
  activity_type : Option String
  distance : Option ℚ
  time : Option String
  pace : Option String
  calories : Option ℚ
  month_year : Option String
  deriving DecidableEq

/-- The raw form fields of an add/edit request.  `distance` and `calories`
stand for the result of Python `float(...)` on the submitted text: `none`
covers a missing field and an unparseable value (both default to 0 in the
code); `date` and `time` and `activity_type` are the raw optional strings. -/
structure Form where
  activity_type : Option String
  distance : Option ℚ
  time : Option String
  calories : Option ℚ
  date : Option String

/-- The date-field handling shared by `add` and `edit`: a missing field, an
empty string (falsy in the code) and an unparseable string all fail; the
empty string never parses, so the code's truthiness test is subsumed. -/
def parseDateField (d : Option String) : Option (ℕ × ℕ × ℕ) :=
  match d with
  | none => none
  | some s => parseYMD s

/-- The record built by the `add` route from the form, the current date
`now = (year, month, day)` and the fresh id. -/
def addRecord (form : Form) (now : ℕ × ℕ × ℕ) (freshId : ℕ) : Record :=
  let distance : ℚ := form.distance.getD 0
  let time_str : String := form.time.getD "00:00:00"
  let pace := calculate_pace (some distance) (some time_str)
  let dmy :=
    match parseDateField form.date with
    | some (y, m, d) => (y, m, d)
    | none => now
  { id := freshId
    date := some (fmtDate dmy.2.2 dmy.2.1 dmy.1)
    activity_type := some (form.activity_type.getD "Running")
    distance := some distance
    time := some time_str
    pace := pace
    calories := some (form.calories.getD 0)
    month_year := some (fmtMY dmy.2.1 dmy.1) }

/-- The in-place update performed by the `edit` route: date and month key are
replaced only when the submitted date parses, every other mutable field is
replaced unconditionally and the pace recomputed. -/
def editRecord (r : Record) (form : Form) : Record :=
  let dm :=
    match parseDateField form.date with
    | some (y, m, d) => (some (fmtDate d m y), some (fmtMY m y))
    | none => (r.date, r.month_year)
  let distance : ℚ := form.distance.getD 0
  let time_str : String := form.time.getD "00:00:00"
  { r with
    date := dm.1
    month_year := dm.2
    activity_type := some (form.activity_type.getD "Running")
    distance := some distance
    time := some time_str
    pace := calculate_pace (some distance) (some time_str)
    calories := some (form.calories.getD 0) }

/-- Append a record to its month's group in an insertion-ordered association
list, creating the group at the end on first sight (Python `defaultdict`
inside an insertion-ordered `dict`). -/
def addToGroup : List (String × List Record) → String → Record → List (String × List Record)
  | [], m, r => [(m, [r])]
  | (k, l) :: rest, m, r =>
    if k = m then (k, l ++ [r]) :: rest else (k, l) :: addToGroup rest m r

/-- The key under which the grouping loop of `home` files a record, if any:
`if record.month_year:` is a Python truthiness test, so a month key that is
NULL *or the empty string* is skipped. -/
def groupKey (r : Record) : Option String :=
  match r.month_year with
  | none => none
  | some m => if m.data = [] then none else some m

/-- One step of the grouping loop in `home`: records whose month key is falsy
(NULL or empty) are skipped, the rest appended to their key's group. -/
def groupStep (acc : List (String × List Record)) (r : Record) : List (String × List Record) :=
  match groupKey r with
  | none => acc
  | some m => addToGroup acc m r

/-- `monthly_data` of `home`: the records grouped by month key, keys in
first-seen order. -/
def groupPairs (rs : List Record) : List (String × List Record) :=
  rs.foldl groupStep []

/-- First-seen list of month keys (`monthly_data.keys()`). -/
def monthKeys (rs : List Record) : List String :=
  (groupPairs rs).map Prod.fst

/-- Association-list lookup of a month's group. -/
def findGroup : List (String × List Record) → String → Option (List Record)
  | [], _ => none
  | (k, l) :: rest, m => if k = m then some l else findGroup rest m

/-- Distance/calories totals of a list of records, a `None` field counting 0. -/
def totalsOf (l : List Record) : ℚ × ℚ :=
  ((l.map (fun r => r.distance.getD 0)).sum, (l.map (fun r => r.calories.getD 0)).sum)

/-- `monthly_totals` of `home`: per-month distance and calories sums. -/
def monthlyTotals (rs : List Record) : List (String × (ℚ × ℚ)) :=
  (groupPairs rs).map (fun p => (p.1, totalsOf p.2))

/-- Association-list lookup of a month's totals. -/
def findTotals : List (String × (ℚ × ℚ)) → String → Option (ℚ × ℚ)
  | [], _ => none
  | (k, t) :: rest, m => if k = m then some t else findTotals rest m

/-- Grand total of `distance` over every record. -/
def totalDistance (rs : List Record) : ℚ :=
  (rs.map (fun r => r.distance.getD 0)).sum

/-- Grand total of `calories` over every record. -/
def totalCalories (rs : List Record) : ℚ :=
  (rs.map (fun r => r.calories.getD 0)).sum

/-- Comparator realising `sorted(..., key=strptime, reverse=True)` on keys
decorated with their parsed `(year, month)`: `a` may come before `b` iff the
value of `b` is at most that of `a` (a stable sort with this relation is
exactly Python's reversed stable sort). -/
def keyPairLe (a b : String × (ℕ × ℕ)) : Bool :=
  b.2.1 < a.2.1 ∨ (b.2.1 = a.2.1 ∧ b.2.2 ≤ a.2.2)

/-- The month keys decorated with their parsed `(year, month)` values, as
Python's `sorted(..., key=...)` computes the key of every element. -/
def decoratedKeys (rs : List Record) : List (String × (ℕ × ℕ)) :=
  (monthKeys rs).map (fun k => (k, (strptime_mY k).getD (0, 0)))

/-- `sorted_months` of `home`: the month keys sorted most-recent first.  As
in Python's `sorted(keys, key=...)`, the key function is applied to every
element (raising on a key that is not `MM-YYYY`, modelled as `Except.error`)
and the decorated list is sorted by the parsed value. -/
def sortedMonthsE (rs : List Record) : Except Unit (List String) :=
  if (monthKeys rs).all (fun k => (strptime_mY k).isSome)
  then Except.ok (((decoratedKeys rs).mergeSort keyPairLe).map Prod.fst)
  else Except.error ()

/-- Byte order of SQLite text comparison: lexicographic on characters
(UTF-8 byte order coincides with code-point order). -/
def lexLe : List Char → List Char → Bool
  | [], _ => true
  | _ :: _, [] => false
  | a :: as_, b :: bs =>
    if a = b then lexLe as_ bs else decide (a.toNat < b.toNat)

/-- SQLite `ORDER BY` comparison of the nullable `date` column, ascending:
NULL sorts before every string. -/
def dateLe (a b : Option String) : Bool :=
  match a, b with
  | none, _ => true
  | some _, none => false
  | some x, some y => lexLe x.data y.data

/-- Comparator realising `ORDER BY date DESC, id DESC`. -/
def homeLe (a b : Record) : Bool :=
  if a.date = b.date then b.id ≤ a.id else dateLe b.date a.date

/-- The list-view query: all records ordered by date descending, id
descending as tiebreak. -/
def sortedStore (store : List Record) : List Record :=
  store.mergeSort homeLe

/-- The whole read path of `home`: ordered records, month groups, month
totals, sorted month list and grand totals; `Except.error` when the month
sort raises. -/
def homeView (store : List Record) :
    Except Unit (List (String × List Record) × List (String × (ℚ × ℚ)) × List String × ℚ × ℚ) :=
  let rs := sortedStore store
  match sortedMonthsE rs with
  | Except.error e => Except.error e
  | Except.ok sm =>
    Except.ok (groupPairs rs, monthlyTotals rs, sm, totalDistance rs, totalCalories rs)

/-- The derivation invariant of §3 of the spec: the stored pace is the pace
computed from the stored distance and time, and the stored month key is the
one extracted from the stored date. -/
def Derived (r : Record) : Prop :=
  r.pace = calculate_pace r.distance r.time ∧ r.month_year = get_month_year r.date

instance : DecidablePred Derived := fun r => by
  unfold Derived; infer_instance

/-- Shape `MM:SS` exactly as claimed: two-digit zero-padded minutes, two-digit
seconds with value at most 59. -/
def strictMMSS (s : String) : Bool :=
  match splitChar ':' s.data with
  | [mm, ss] =>
    (mm.data.length == 2) && mm.data.all Char.isDigit &&
    (ss.data.length == 2) && ss.data.all Char.isDigit && decide (digitsToNat ss.data ≤ 59)
  | _ => false

/-- Shape of a pace string actually produced on well-formed input: an
at-least-two-digit zero-padded minute field and a two-digit second field of
value at most 59. -/
def paceShape (s : String) : Bool :=
  match splitChar ':' s.data with
  | [mm, ss] =>
    decide (2 ≤ mm.data.length) && mm.data.all Char.isDigit &&
    (ss.data.length == 2) && ss.data.all Char.isDigit && decide (digitsToNat ss.data ≤ 59)
  | _ => false

/-- A time string valid for `calculate_pace`: splits on `:` into exactly two
or three parts that all parse as integers. -/
def validTime (ts : String) : Bool :=
  match splitChar ':' ts.data with
  | [hs, ms, ss] =>
    (parseIntChars hs.data).isSome && (parseIntChars ms.data).isSome &&
    (parseIntChars ss.data).isSome
  | [ms, ss] => (parseIntChars ms.data).isSome && (parseIntChars ss.data).isSome
  | _ => false

/-- The record set of the spec's aggregation example: two records in period
`01-2024` with distances 5 and 3, one in `02-2024` with distance 10. -/
def exampleRecs : List Record :=
  [ { id := 1, date := some "05-01-2024", activity_type := some "Running",
      distance := some 5, time := some "00:25:00", pace := some "05:00",
      calories := some 300, month_year := some "01-2024" },
    { id := 2, date := some "20-01-2024", activity_type := some "Running",
      distance := some 3, time := some "00:15:00", pace := some "05:00",
      calories := some 180, month_year := some "01-2024" },
    { id := 3, date := some "10-02-2024", activity_type := some "Running",
      distance := some 10, time := some "00:50:00", pace := some "05:00",
      calories := some 600, month_year := some "02-2024" } ]

/-! ### Helper lemmas: splitting -/

theorem splitChar_ne_nil (sep : Char) (l : List Char) : splitChar sep l ≠ [] := by
  induction l with
  | nil => simp [splitChar]
  | cons c rest ih =>
    rw [splitChar]
    rcases h : splitChar sep rest with _ | ⟨hd, tl⟩
    · exact absurd h ih
    · by_cases hc : c = sep <;> simp [hc]

theorem splitChar_no_sep (sep : Char) (l : List Char) (h : sep ∉ l) :
    splitChar sep l = [String.mk l] := by
  induction l with
  | nil => rfl
  | cons c rest ih =>
    have hc : c ≠ sep := fun he => h (he ▸ List.mem_cons_self c rest)
    have hrest : sep ∉ rest := fun hm => h (List.mem_cons_of_mem c hm)
    rw [splitChar, ih hrest]
    simp [hc]

theorem splitChar_append (sep : Char) (l1 l2 : List Char) (h : sep ∉ l1) :
    splitChar sep (l1 ++ sep :: l2) = String.mk l1 :: splitChar sep l2 := by
  induction l1 with
  | nil =>
    rw [List.nil_append, splitChar]
    rcases hs : splitChar sep l2 with _ | ⟨hd, tl⟩
    · exact absurd hs (splitChar_ne_nil sep l2)
    · simp
  | cons c rest ih =>
    have hc : c ≠ sep := fun he => h (he ▸ List.mem_cons_self c rest)
    have hrest : sep ∉ rest := fun hm => h (List.mem_cons_of_mem c hm)
    rw [List.cons_append, splitChar, ih hrest]
    simp [hc]

theorem splitChar_two (sep : Char) (a b : List Char) (ha : sep ∉ a) (hb : sep ∉ b) :
    splitChar sep (a ++ sep :: b) = [String.mk a, String.mk b] := by
  rw [splitChar_append sep a _ ha, splitChar_no_sep sep b hb]

theorem splitChar_three (sep : Char) (a b c : List Char)
    (ha : sep ∉ a) (hb : sep ∉ b) (hc : sep ∉ c) :
    splitChar sep (a ++ sep :: (b ++ sep :: c)) = [String.mk a, String.mk b, String.mk c] := by
  rw [splitChar_append sep a _ ha, splitChar_two sep b c hb hc]

/-! ### Helper lemmas: decimal digits -/

theorem char_ofNat_digit (k : ℕ) (hk : k < 10) :
    (Char.ofNat (48 + k)).isDigit = true ∧ (Char.ofNat (48 + k)).toNat = 48 + k := by
  revert hk
  revert k
  decide

theorem natDigitsAux_congr : ∀ (f1 f2 n : ℕ), n < f1 → n < f2 →
    natDigitsAux f1 n = natDigitsAux f2 n := by
  intro f1
  induction f1 with
  | zero => intro f2 n h1 h2; omega
  | succ f ih =>
    intro f2 n h1 h2
    cases f2 with
    | zero => omega
    | succ g =>
      simp only [natDigitsAux]
      by_cases h : n < 10
      · rw [if_pos h, if_pos h]
      · rw [if_neg h, if_neg h, ih g (n / 10) (by omega) (by omega)]

theorem natDigits_eq (n : ℕ) : natDigits n =
    if n < 10 then [Char.ofNat (48 + n)]
    else natDigits (n / 10) ++ [Char.ofNat (48 + n % 10)] := by
  have step : natDigitsAux (n + 1) n =
      if n < 10 then [Char.ofNat (48 + n)]
      else natDigitsAux n (n / 10) ++ [Char.ofNat (48 + n % 10)] := rfl
  show natDigitsAux (n + 1) n = _
  rw [step]
  by_cases h : n < 10
  · rw [if_pos h, if_pos h]
  · rw [if_neg h, if_neg h]
    show natDigitsAux n (n / 10) ++ _ = natDigitsAux (n / 10 + 1) (n / 10) ++ _
    rw [natDigitsAux_congr n (n / 10 + 1) (n / 10) (by omega) (by omega)]

theorem natDigits_all_digit (n : ℕ) : ∀ c ∈ natDigits n, c.isDigit = true := by
  induction n using Nat.strong_induction_on with
  | _ n ih =>
    rw [natDigits_eq]
    split
    · next h =>
      intro c hc
      simp only [List.mem_singleton] at hc
      exact hc ▸ (char_ofNat_digit n h).1
    · next h =>
      intro c hc
      rcases List.mem_append.mp hc with h1 | h2
      · exact ih (n / 10) (Nat.div_lt_self (by omega) (by omega)) c h1
      · simp only [List.mem_singleton] at h2
        exact h2 ▸ (char_ofNat_digit (n % 10) (Nat.mod_lt n (by omega))).1

theorem natDigits_length_pos (n : ℕ) : 0 < (natDigits n).length := by
  rw [natDigits_eq]
  split <;> simp

theorem natDigits_lt10 (n : ℕ) (h : n < 10) : natDigits n = [Char.ofNat (48 + n)] := by
  rw [natDigits_eq, if_pos h]

theorem natDigits_lt100_length (n : ℕ) (h : n < 100) : (natDigits n).length ≤ 2 := by
  by_cases h10 : n < 10
  · rw [natDigits_lt10 n h10]; simp
  · rw [natDigits_eq, if_neg h10]
    have : n / 10 < 10 := by omega
    rw [natDigits_lt10 _ this]
    simp

theorem digitsToNat_append_singleton (l : List Char) (c : Char) :
    digitsToNat (l ++ [c]) = digitsToNat l * 10 + (c.toNat - 48) := by
  unfold digitsToNat
  rw [List.foldl_append]
  rfl

theorem digitsToNat_natDigits (n : ℕ) : digitsToNat (natDigits n) = n := by
  induction n using Nat.strong_induction_on with
  | _ n ih =>
    rw [natDigits_eq]
    split
    · next h =>
      show digitsToNat [Char.ofNat (48 + n)] = n
      unfold digitsToNat
      simp [(char_ofNat_digit n h).2]
    · next h =>
      rw [digitsToNat_append_singleton,
        ih (n / 10) (Nat.div_lt_self (by omega) (by omega)),
        (char_ofNat_digit (n % 10) (Nat.mod_lt n (by omega))).2]
      omega

theorem digitsToNat_cons_zero (l : List Char) : digitsToNat ('0' :: l) = digitsToNat l := by
  unfold digitsToNat
  rfl

theorem isDigit_ne_of_not_isDigit {c s : Char} (hc : c.isDigit = true)
    (hs : s.isDigit = false) : c ≠ s := by
  intro he
  rw [he, hs] at hc
  exact Bool.false_ne_true hc

theorem natDigits_not_mem {n : ℕ} {s : Char} (hs : s.isDigit = false) : s ∉ natDigits n := by
  intro hmem
  exact absurd (natDigits_all_digit n s hmem) (by simp [hs])

/-! ### Helper lemmas: padding and integer formatting -/

theorem pad2_length (l : List Char) (h : 0 < l.length) : 2 ≤ (pad2 l).length := by
  unfold pad2
  split
  · simp only [List.length_cons]; omega
  · omega

theorem pad2_length_eq (l : List Char) (h1 : 0 < l.length) (h2 : l.length ≤ 2) :
    (pad2 l).length = 2 := by
  unfold pad2
  split
  · simp only [List.length_cons]; omega
  · omega

theorem pad2_all_digit (l : List Char) (h : ∀ c ∈ l, c.isDigit = true) :
    ∀ c ∈ pad2 l, c.isDigit = true := by
  unfold pad2
  split
  · intro c hc
    rcases List.mem_cons.mp hc with h0 | hl
    · rw [h0]; decide
    · exact h c hl
  · exact h

theorem digitsToNat_pad2 (l : List Char) : digitsToNat (pad2 l) = digitsToNat l := by
  unfold pad2
  split
  · exact digitsToNat_cons_zero l
  · rfl

theorem intDigits_ofNat (n : ℕ) : intDigits (n : ℤ) = natDigits n := by
  unfold intDigits
  rw [if_neg (by omega)]
  simp

theorem itrunc_of_nonneg (q : ℚ) (h : 0 ≤ q) : itrunc q = ⌊q⌋ := by
  unfold itrunc
  exact if_pos h

/-! ### Helper lemmas: `calculate_pace` reduction -/

theorem intDigits_of_nonneg (i : ℤ) (h : 0 ≤ i) : intDigits i = natDigits i.toNat := by
  unfold intDigits
  rw [if_neg (by omega)]

theorem data_ne_nil_of_split_three (ts a b c : String)
    (hsplit : splitChar ':' ts.data = [a, b, c]) : ts.data ≠ [] := by
  intro he
  rw [he] at hsplit
  simp [splitChar] at hsplit

theorem data_ne_nil_of_split_two (ts a b : String)
    (hsplit : splitChar ':' ts.data = [a, b]) : ts.data ≠ [] := by
  intro he
  rw [he] at hsplit
  simp [splitChar] at hsplit

theorem totalMinutes_three (ts a b c : String) (h m s : ℤ)
    (hsplit : splitChar ':' ts.data = [a, b, c])
    (ha : parseIntChars a.data = some h) (hb : parseIntChars b.data = some m)
    (hc : parseIntChars c.data = some s) :
    totalMinutes ts = some ((h : ℚ) * 60 + (m : ℚ) + (s : ℚ) / 60) := by
  simp only [totalMinutes, hsplit, ha, hb, hc]

theorem totalMinutes_two (ts b c : String) (m s : ℤ)
    (hsplit : splitChar ':' ts.data = [b, c])
    (hb : parseIntChars b.data = some m) (hc : parseIntChars c.data = some s) :
    totalMinutes ts = some ((m : ℚ) + (s : ℚ) / 60) := by
  simp only [totalMinutes, hsplit, hb, hc]

theorem calculate_pace_some (dk : ℚ) (ts : String) (t : ℚ)
    (hdk : 0 < dk) (hts : ts.data ≠ []) (ht : totalMinutes ts = some t) :
    calculate_pace (some dk) (some ts) = some (paceOut t dk) := by
  simp only [calculate_pace, ht]
  rw [if_neg (by push_neg; exact ⟨hdk, hts⟩)]

theorem validTime_eq_isSome (ts : String) : validTime ts = (totalMinutes ts).isSome := by
  unfold validTime totalMinutes
  rcases hsp : splitChar ':' ts.data with _ | ⟨a, _ | ⟨b, _ | ⟨c, _ | ⟨d, e⟩⟩⟩⟩
  · rfl
  · rfl
  · cases hpb : parseIntChars a.data <;> cases hpc : parseIntChars b.data <;>
      simp [hpb, hpc]
  · cases hpa : parseIntChars a.data <;> cases hpb : parseIntChars b.data <;>
      cases hpc : parseIntChars c.data <;> simp [hpa, hpb, hpc]
  · rfl

/-! ### Helper lemmas: shape of a produced pace string -/

theorem paceShape_paceOut (t dk : ℚ) (ht : 0 ≤ t) (hdk : 0 < dk) :
    paceShape (paceOut t dk) = true := by
  have expand : paceOut t dk =
      String.mk (pad2 (intDigits (itrunc (t / dk))) ++ ':' ::
        pad2 (intDigits (itrunc ((t / dk - (itrunc (t / dk) : ℚ)) * 60)))) := rfl
  rw [expand]
  set pm : ℚ := t / dk with hpm
  have hpm0 : 0 ≤ pm := div_nonneg ht hdk.le
  rw [itrunc_of_nonneg pm hpm0]
  have hfr0 : 0 ≤ (pm - (⌊pm⌋ : ℚ)) * 60 :=
    mul_nonneg (sub_nonneg.mpr (Int.floor_le pm)) (by norm_num)
  rw [itrunc_of_nonneg _ hfr0]
  have hmin0 : 0 ≤ ⌊pm⌋ := Int.floor_nonneg.mpr hpm0
  have hsec0 : 0 ≤ ⌊(pm - (⌊pm⌋ : ℚ)) * 60⌋ := Int.floor_nonneg.mpr hfr0
  have hseclt : (pm - (⌊pm⌋ : ℚ)) * 60 < 60 := by
    have h1 : pm - (⌊pm⌋ : ℚ) < 1 := by
      have := Int.lt_floor_add_one pm
      linarith
    nlinarith
  have hsec59 : ⌊(pm - (⌊pm⌋ : ℚ)) * 60⌋ ≤ 59 := by
    have : ⌊(pm - (⌊pm⌋ : ℚ)) * 60⌋ < (60 : ℤ) :=
      Int.floor_lt.mpr (by exact_mod_cast hseclt)
    omega
  rw [intDigits_of_nonneg _ hmin0, intDigits_of_nonneg _ hsec0]
  set Mn : ℕ := (⌊pm⌋).toNat
  set Sn : ℕ := (⌊(pm - (⌊pm⌋ : ℚ)) * 60⌋).toNat
  have hSn : Sn ≤ 59 := by omega
  have hmm_digits : ∀ ch ∈ pad2 (natDigits Mn), ch.isDigit = true :=
    pad2_all_digit _ (natDigits_all_digit Mn)
  have hss_digits : ∀ ch ∈ pad2 (natDigits Sn), ch.isDigit = true :=
    pad2_all_digit _ (natDigits_all_digit Sn)
  have hcolon_mm : ':' ∉ pad2 (natDigits Mn) := fun hm =>
    absurd (hmm_digits ':' hm) (by decide)
  have hcolon_ss : ':' ∉ pad2 (natDigits Sn) := fun hm =>
    absurd (hss_digits ':' hm) (by decide)
  unfold paceShape
  rw [show (String.mk (pad2 (natDigits Mn) ++ ':' :: pad2 (natDigits Sn))).data
      = pad2 (natDigits Mn) ++ ':' :: pad2 (natDigits Sn) from rfl]
  rw [splitChar_two ':' _ _ hcolon_mm hcolon_ss]
  simp only [Bool.and_eq_true, beq_iff_eq, decide_eq_true_eq, List.all_eq_true]
  refine ⟨⟨⟨⟨pad2_length _ (natDigits_length_pos Mn), hmm_digits⟩, ?_⟩, hss_digits⟩, ?_⟩
  · exact pad2_length_eq _ (natDigits_length_pos Sn) (natDigits_lt100_length Sn (by omega))
  · rw [digitsToNat_pad2, digitsToNat_natDigits]
    exact hSn

/-! ### Helper lemmas: evaluating `itrunc` and `paceOut` at concrete values -/

theorem itrunc_intCast (n : ℤ) : itrunc ((n : ℚ)) = n := by
  unfold itrunc
  split <;> simp

theorem itrunc_eq_of_cast (q : ℚ) (n : ℤ) (h : q = (n : ℚ)) : itrunc q = n :=
  h ▸ itrunc_intCast n

theorem itrunc_eval_neg (q : ℚ) (z : ℤ) (h0 : ¬ 0 ≤ q) (h1 : (z : ℚ) - 1 < q)
    (h2 : q ≤ (z : ℚ)) : itrunc q = z := by
  unfold itrunc
  rw [if_neg h0]
  exact Int.ceil_eq_iff.mpr ⟨h1, h2⟩

theorem paceOut_eq (t dk : ℚ) (M S : ℤ)
    (hM : itrunc (t / dk) = M) (hS : itrunc ((t / dk - (M : ℚ)) * 60) = S) :
    paceOut t dk = String.mk (pad2 (intDigits M) ++ ':' :: pad2 (intDigits S)) := by
  have expand : paceOut t dk =
      String.mk (pad2 (intDigits (itrunc (t / dk))) ++ ':' ::
        pad2 (intDigits (itrunc ((t / dk - (itrunc (t / dk) : ℚ)) * 60)))) := rfl
  rw [expand, hM, hS]

/-! ### Claim theorems C1–C3 -/

/-- **C1.** For every `distanceKm > 0` and every elapsed-time string splitting
on `:` into exactly three integer parts `h`, `m`, `s` (or two parts `m`, `s`),
`calculate_pace` computes total elapsed minutes `h*60 + m + s/60`, divides by
`distanceKm`, and returns the truncated integer minute part and the truncated
fractional-minute-part times 60 second part, formatted zero-padded as `MM:SS`;
in particular `computePace(5, "00:25:00") = "05:00"` and
`computePace(10, "50:00") = "05:00"`. -/
theorem C1_computePace_formula :
    (∀ (dk : ℚ) (ts a b c : String) (h m s : ℤ),
      0 < dk → splitChar ':' ts.data = [a, b, c] →
      parseIntStr a = some h → parseIntStr b = some m → parseIntStr c = some s →
      calculate_pace (some dk) (some ts) =
        some (String.mk
          (pad2 (intDigits (itrunc (((h : ℚ) * 60 + (m : ℚ) + (s : ℚ) / 60) / dk))) ++ ':' ::
           pad2 (intDigits (itrunc ((((h : ℚ) * 60 + (m : ℚ) + (s : ℚ) / 60) / dk -
             (itrunc (((h : ℚ) * 60 + (m : ℚ) + (s : ℚ) / 60) / dk) : ℚ)) * 60)))))) ∧
    (∀ (dk : ℚ) (ts b c : String) (m s : ℤ),
      0 < dk → splitChar ':' ts.data = [b, c] →
      parseIntStr b = some m → parseIntStr c = some s →
      calculate_pace (some dk) (some ts) =
        some (String.mk
          (pad2 (intDigits (itrunc (((m : ℚ) + (s : ℚ) / 60) / dk))) ++ ':' ::
           pad2 (intDigits (itrunc ((((m : ℚ) + (s : ℚ) / 60) / dk -
             (itrunc (((m : ℚ) + (s : ℚ) / 60) / dk) : ℚ)) * 60)))))) ∧
    calculate_pace (some 5) (some "00:25:00") = some "05:00" ∧
    calculate_pace (some 10) (some "50:00") = some "05:00" := by
  refine ⟨?_, ?_, ?_, ?_⟩
  · intro dk ts a b c h m s hdk hsplit ha hb hc
    rw [calculate_pace_some dk ts _ hdk (data_ne_nil_of_split_three ts a b c hsplit)
      (totalMinutes_three ts a b c h m s hsplit ha hb hc)]
    rfl
  · intro dk ts b c m s hdk hsplit hb hc
    rw [calculate_pace_some dk ts _ hdk (data_ne_nil_of_split_two ts b c hsplit)
      (totalMinutes_two ts b c m s hsplit hb hc)]
    rfl
  · rw [calculate_pace_some 5 "00:25:00" (((0 : ℤ) : ℚ) * 60 + ((25 : ℤ) : ℚ) + ((0 : ℤ) : ℚ) / 60)
      (by norm_num) (by decide)
      (totalMinutes_three "00:25:00" "00" "25" "00" 0 25 0 (by decide) (by decide) (by decide)
        (by decide)),
      paceOut_eq _ _ 5 0 (itrunc_eq_of_cast _ 5 (by push_cast; norm_num))
        (itrunc_eq_of_cast _ 0 (by push_cast; norm_num))]
    decide
  · rw [calculate_pace_some 10 "50:00" (((50 : ℤ) : ℚ) + ((0 : ℤ) : ℚ) / 60)
      (by norm_num) (by decide)
      (totalMinutes_two "50:00" "50" "00" 50 0 (by decide) (by decide) (by decide)),
      paceOut_eq _ _ 5 0 (itrunc_eq_of_cast _ 5 (by push_cast; norm_num))
        (itrunc_eq_of_cast _ 0 (by push_cast; norm_num))]
    decide

/-- **C1 witness:** the three-part branch of C1 instantiated at
`distanceKm = 5`, `elapsedTime = "00:25:00"`. -/
theorem C1_computePace_formula_witness :
    calculate_pace (some 5) (some "00:25:00") =
      some (String.mk
        (pad2 (intDigits (itrunc ((((0 : ℤ) : ℚ) * 60 + ((25 : ℤ) : ℚ) + ((0 : ℤ) : ℚ) / 60) / 5))) ++ ':' ::
         pad2 (intDigits (itrunc (((((0 : ℤ) : ℚ) * 60 + ((25 : ℤ) : ℚ) + ((0 : ℤ) : ℚ) / 60) / 5 -
           (itrunc ((((0 : ℤ) : ℚ) * 60 + ((25 : ℤ) : ℚ) + ((0 : ℤ) : ℚ) / 60) / 5) : ℚ)) * 60))))) :=
  C1_computePace_formula.1 5 "00:25:00" "00" "25" "00" 0 25 0 (by norm_num) (by decide)
    (by decide) (by decide) (by decide)

/-- **C2.** `calculate_pace` returns `None` exactly when the distance is
absent, zero or negative, or the elapsed-time string does not split on `:`
into exactly 2 or 3 parts that all parse as integers; on all other inputs it
returns a pace string (it is a total function: no exception path exists). -/
theorem C2_computePace_none_iff (dk : Option ℚ) (ts : String) :
    calculate_pace dk (some ts) = none ↔
      dk = none ∨ (∃ q, dk = some q ∧ q ≤ 0) ∨ validTime ts = false := by
  cases dk with
  | none => simp [calculate_pace]
  | some q =>
    rw [validTime_eq_isSome]
    by_cases hq : q ≤ 0
    · have hl : calculate_pace (some q) (some ts) = none := by
        simp only [calculate_pace]
        rw [if_pos (Or.inl hq)]
      simp [hl, hq]
    · by_cases hts : ts.data = []
      · have hl : calculate_pace (some q) (some ts) = none := by
          simp only [calculate_pace]
          rw [if_pos (Or.inr hts)]
        have htm : totalMinutes ts = none := by
          unfold totalMinutes
          rw [hts]
          rfl
        simp [hl, htm, hq]
      · cases htm : totalMinutes ts with
        | none =>
          have hl : calculate_pace (some q) (some ts) = none := by
            simp only [calculate_pace, htm]
            rw [if_neg (by push_neg; exact ⟨not_le.mp hq, hts⟩)]
          simp [hl, htm, hq]
        | some t =>
          have hl : calculate_pace (some q) (some ts) = some (paceOut t q) :=
            calculate_pace_some q ts t (not_le.mp hq) hts htm
          simp [hl, htm, hq]

/-- **C2 witness:** the characterisation instantiated at a concrete negative
distance. -/
theorem C2_computePace_none_iff_witness :
    calculate_pace (some (-1)) (some "00:30:00") = none ↔
      (some (-1) : Option ℚ) = none ∨ (∃ q, (some (-1) : Option ℚ) = some q ∧ q ≤ 0) ∨
      validTime "00:30:00" = false :=
  C2_computePace_none_iff (some (-1)) "00:30:00"

/-- **C3 counterexample.** The claim "for every `distanceKm > 0` and valid
elapsed time the result is two-digit zero-padded `MM:SS` with `0 ≤ SS ≤ 59`"
fails on the code: the time `"0:-30"` is made of two integer parts but yields
`"00:-30"` (a negative second field), and distance `1/100` with time `"1:00"`
yields `"100:00"` (a five-digit minute field). -/
theorem C3_pace_shape_counterexample :
    (0 : ℚ) < 1 ∧ validTime "0:-30" = true ∧
    calculate_pace (some 1) (some "0:-30") = some "00:-30" ∧
    strictMMSS "00:-30" = false ∧
    (0 : ℚ) < 1 / 100 ∧ validTime "1:00" = true ∧
    calculate_pace (some (1 / 100)) (some "1:00") = some "100:00" ∧
    strictMMSS "100:00" = false := by
  refine ⟨by norm_num, by decide, ?_, by decide, by norm_num, by decide, ?_, by decide⟩
  · rw [calculate_pace_some 1 "0:-30" (((0 : ℤ) : ℚ) + ((-30 : ℤ) : ℚ) / 60)
      (by norm_num) (by decide)
      (totalMinutes_two "0:-30" "0" "-30" 0 (-30) (by decide) (by decide) (by decide)),
      paceOut_eq _ _ 0 (-30)
        (itrunc_eval_neg _ 0 (by push_cast; norm_num) (by push_cast; norm_num)
          (by push_cast; norm_num))
        (itrunc_eq_of_cast _ (-30) (by push_cast; norm_num))]
    decide
  · rw [calculate_pace_some (1 / 100) "1:00" (((1 : ℤ) : ℚ) + ((0 : ℤ) : ℚ) / 60)
      (by norm_num) (by decide)
      (totalMinutes_two "1:00" "1" "00" 1 0 (by decide) (by decide) (by decide)),
      paceOut_eq _ _ 100 0 (itrunc_eq_of_cast _ 100 (by push_cast; norm_num))
        (itrunc_eq_of_cast _ 0 (by push_cast; norm_num))]
    decide

/-- **C3 (amended).** For every `distanceKm > 0` and every elapsed time with
2 or 3 colon-separated *nonnegative* integer parts, the returned string is a
minute field zero-padded to *at least* two digits followed by `:` and a
two-digit second field `SS` with `0 ≤ SS ≤ 59`.  (The original claim fails
for negative time parts and for paces of 100 minutes per km or more.) -/
theorem C3_pace_shape_amended :
    (∀ (dk : ℚ) (ts a b c : String) (h m s : ℤ),
      0 < dk → splitChar ':' ts.data = [a, b, c] →
      parseIntStr a = some h → parseIntStr b = some m → parseIntStr c = some s →
      0 ≤ h → 0 ≤ m → 0 ≤ s →
      ∃ out, calculate_pace (some dk) (some ts) = some out ∧ paceShape out = true) ∧
    (∀ (dk : ℚ) (ts b c : String) (m s : ℤ),
      0 < dk → splitChar ':' ts.data = [b, c] →
      parseIntStr b = some m → parseIntStr c = some s →
      0 ≤ m → 0 ≤ s →
      ∃ out, calculate_pace (some dk) (some ts) = some out ∧ paceShape out = true) := by
  constructor
  · intro dk ts a b c h m s hdk hsplit ha hb hc hh hm hs
    refine ⟨paceOut ((h : ℚ) * 60 + (m : ℚ) + (s : ℚ) / 60) dk,
      calculate_pace_some dk ts _ hdk (data_ne_nil_of_split_three ts a b c hsplit)
        (totalMinutes_three ts a b c h m s hsplit ha hb hc),
      paceShape_paceOut _ dk ?_ hdk⟩
    have hh' : (0 : ℚ) ≤ (h : ℚ) := by exact_mod_cast hh
    have hm' : (0 : ℚ) ≤ (m : ℚ) := by exact_mod_cast hm
    have hs' : (0 : ℚ) ≤ (s : ℚ) := by exact_mod_cast hs
    have h60 : (0 : ℚ) ≤ 60 := by norm_num
    exact add_nonneg (add_nonneg (mul_nonneg hh' h60) hm') (div_nonneg hs' h60)
  · intro dk ts b c m s hdk hsplit hb hc hm hs
    refine ⟨paceOut ((m : ℚ) + (s : ℚ) / 60) dk,
      calculate_pace_some dk ts _ hdk (data_ne_nil_of_split_two ts b c hsplit)
        (totalMinutes_two ts b c m s hsplit hb hc),
      paceShape_paceOut _ dk ?_ hdk⟩
    have hm' : (0 : ℚ) ≤ (m : ℚ) := by exact_mod_cast hm
    have hs' : (0 : ℚ) ≤ (s : ℚ) := by exact_mod_cast hs
    exact add_nonneg hm' (div_nonneg hs' (by norm_num))

/-- **C3 witness:** the amended shape statement instantiated at
`distanceKm = 5`, `elapsedTime = "00:25:00"`. -/
theorem C3_pace_shape_amended_witness :
    ∃ out, calculate_pace (some 5) (some "00:25:00") = some out ∧ paceShape out = true :=
  C3_pace_shape_amended.1 5 "00:25:00" "00" "25" "00" 0 25 0 (by norm_num) (by decide)
    (by decide) (by decide) (by decide) (by decide) (by decide) (by decide)

/-! ### Helper lemmas: date formatting and `get_month_year` -/

theorem dash_not_mem_fmt2 (n : ℕ) : '-' ∉ fmt2 n := fun h =>
  absurd (pad2_all_digit _ (natDigits_all_digit n) '-' h) (by decide)

theorem dash_not_mem_fmt4 (n : ℕ) : '-' ∉ fmt4 n := by
  intro h
  rcases List.mem_append.mp h with h1 | h2
  · exact absurd (List.eq_of_mem_replicate h1) (by decide)
  · exact absurd (natDigits_all_digit n '-' h2) (by decide)

theorem get_month_year_fmtDate (d m y : ℕ) :
    get_month_year (some (fmtDate d m y)) = some (fmtMY m y) := by
  simp only [get_month_year, fmtDate]
  rw [if_neg (by simp)]
  rw [List.append_assoc, List.cons_append]
  rw [splitChar_three '-' (fmt2 d) (fmt2 m) (fmt4 y) (dash_not_mem_fmt2 d)
    (dash_not_mem_fmt2 m) (dash_not_mem_fmt4 y)]
  rfl

/-! ### Claim theorems C6, C7, C8 -/

/-- **C6.** For every date input that parses as `YYYY-MM-DD`, the record
created by `add` stores the canonical date `DD-MM-YYYY` and the period key
`MM-YYYY` derived from the same parse; in particular `"2024-03-15"` yields
canonical date `"15-03-2024"` and period key `"03-2024"`. -/
theorem C6_date_normalization :
    (∀ (form : Form) (now : ℕ × ℕ × ℕ) (freshId : ℕ) (ds : String) (y m d : ℕ),
      form.date = some ds → parseYMD ds = some (y, m, d) →
      (addRecord form now freshId).date = some (fmtDate d m y) ∧
      (addRecord form now freshId).month_year = some (fmtMY m y)) ∧
    parseYMD "2024-03-15" = some (2024, 3, 15) ∧
    fmtDate 15 3 2024 = "15-03-2024" ∧ fmtMY 3 2024 = "03-2024" := by
  refine ⟨?_, by decide, by decide, by decide⟩
  intro form now freshId ds y m d hds hparse
  unfold addRecord parseDateField
  rw [hds]
  simp [hparse]

/-- **C6 witness:** creating with date `"2024-03-15"` stores `"15-03-2024"`
and `"03-2024"`. -/
theorem C6_date_normalization_witness :
    (addRecord ⟨some "Running", some 5, some "00:25:00", some 300, some "2024-03-15"⟩
      (2025, 10, 12) 7).date = some (fmtDate 15 3 2024) ∧
    (addRecord ⟨some "Running", some 5, some "00:25:00", some 300, some "2024-03-15"⟩
      (2025, 10, 12) 7).month_year = some (fmtMY 3 2024) :=
  C6_date_normalization.1 _ (2025, 10, 12) 7 "2024-03-15" 2024 3 15 rfl (by decide)

/-- **C7.** After every create and after every edit of a record already
satisfying it, the derivation invariant holds: the stored pace equals
`calculate_pace` of the stored distance and time, and the stored period key
equals the `MM-YYYY` extracted from the stored canonical date. -/
theorem C7_derived_invariant :
    (∀ (form : Form) (now : ℕ × ℕ × ℕ) (freshId : ℕ),
      Derived (addRecord form now freshId)) ∧
    (∀ (r : Record) (form : Form), Derived r → Derived (editRecord r form)) := by
  constructor
  · intro form now freshId
    refine ⟨rfl, ?_⟩
    unfold addRecord
    dsimp only
    exact (get_month_year_fmtDate _ _ _).symm
  · intro r form hr
    refine ⟨rfl, ?_⟩
    unfold editRecord
    dsimp only
    cases hpd : parseDateField form.date with
    | none => simp only [hpd]; exact hr.2
    | some t =>
      obtain ⟨y, m, d⟩ := t
      simp only [hpd]
      exact (get_month_year_fmtDate d m y).symm

/-- **C7 witness:** the create half at a concrete form, and the edit half on
the record it produces. -/
theorem C7_derived_invariant_witness :
    Derived (addRecord ⟨some "Running", some 5, some "00:25:00", some 300, some "2024-03-15"⟩
      (2025, 10, 12) 7) ∧
    Derived (editRecord
      (addRecord ⟨some "Running", some 5, some "00:25:00", some 300, some "2024-03-15"⟩
        (2025, 10, 12) 7)
      ⟨some "Cycling", some 10, some "00:40:00", some 250, some "not-a-date"⟩) :=
  ⟨C7_derived_invariant.1 _ (2025, 10, 12) 7,
   C7_derived_invariant.2 _ _ (C7_derived_invariant.1 _ (2025, 10, 12) 7)⟩

/-- **C8.** An edit whose date field is missing, empty or unparseable leaves
the stored date and period key unchanged while still replacing activity type,
distance, time, pace and calories (and preserving the id). -/
theorem C8_edit_invalid_date_frame (r : Record) (form : Form)
    (hd : parseDateField form.date = none) :
    (editRecord r form).date = r.date ∧
    (editRecord r form).month_year = r.month_year ∧
    (editRecord r form).activity_type = some (form.activity_type.getD "Running") ∧
    (editRecord r form).distance = some (form.distance.getD 0) ∧
    (editRecord r form).time = some (form.time.getD "00:00:00") ∧
    (editRecord r form).pace =
      calculate_pace (some (form.distance.getD 0)) (some (form.time.getD "00:00:00")) ∧
    (editRecord r form).calories = some (form.calories.getD 0) ∧
    (editRecord r form).id = r.id := by
  unfold editRecord
  simp [hd]

/-- **C8 witness:** an edit with the unparseable date `"bad-date"` on a
concrete stored record. -/
theorem C8_edit_invalid_date_frame_witness :
    (editRecord ⟨1, some "05-01-2024", some "Running", some 5, some "00:25:00",
        some "05:00", some 300, some "01-2024"⟩
      ⟨some "Cycling", some 4, some "00:20:00", some 100, some "bad-date"⟩).date =
        some "05-01-2024" ∧
    (editRecord ⟨1, some "05-01-2024", some "Running", some 5, some "00:25:00",
        some "05:00", some 300, some "01-2024"⟩
      ⟨some "Cycling", some 4, some "00:20:00", some 100, some "bad-date"⟩).month_year =
        some "01-2024" := by
  have h := C8_edit_invalid_date_frame
    ⟨1, some "05-01-2024", some "Running", some 5, some "00:25:00",
      some "05:00", some 300, some "01-2024"⟩
    ⟨some "Cycling", some 4, some "00:20:00", some 100, some "bad-date"⟩
    (by decide)
  exact ⟨h.1, h.2.1⟩

/-! ### Helper lemmas: grouping -/

theorem findGroup_addToGroup (acc : List (String × List Record)) (m m' : String) (r : Record) :
    findGroup (addToGroup acc m r) m' =
      if m' = m then some (((findGroup acc m).getD []) ++ [r]) else findGroup acc m' := by
  induction acc with
  | nil =>
    by_cases h : m' = m
    · subst h; simp [addToGroup, findGroup]
    · have h' : ¬ (m = m') := fun e => h e.symm
      simp [addToGroup, findGroup, h, h']
  | cons p rest ih =>
    obtain ⟨k, l⟩ := p
    by_cases hk : k = m
    · subst hk
      simp only [addToGroup, if_pos rfl]
      by_cases h : m' = k
      · subst h; simp [findGroup]
      · have h' : ¬ (k = m') := fun e => h e.symm
        simp [findGroup, h, h']
    · simp only [addToGroup, if_neg hk]
      by_cases h : k = m'
      · subst h
        simp [findGroup, hk]
      · simp [findGroup, h, hk, ih]

theorem data_eq_nil_iff (s : String) : s.data = [] ↔ s = "" := by
  constructor
  · intro h
    have h1 : s = String.mk s.data := by cases s; rfl
    rw [h1, h]
  · intro h
    rw [h]

theorem groupKey_eq_some_iff (r : Record) (m : String) :
    groupKey r = some m ↔ r.month_year = some m ∧ m ≠ "" := by
  cases hmy : r.month_year with
  | none => simp [groupKey, hmy]
  | some k =>
    simp only [groupKey, hmy]
    by_cases hk : k.data = []
    · rw [if_pos hk]
      have hke : k = "" := (data_eq_nil_iff k).mp hk
      subst hke
      constructor
      · intro h
        cases h
      · rintro ⟨hkm, hm⟩
        exact absurd (by simpa using hkm.symm) hm
    · rw [if_neg hk]
      have hkne : k ≠ "" := fun e => hk ((data_eq_nil_iff k).mpr e)
      constructor
      · intro h
        obtain rfl : k = m := by simpa using h
        exact ⟨rfl, hkne⟩
      · rintro ⟨hkm, _⟩
        simpa using hkm

theorem groupKey_eq_none_iff (r : Record) :
    groupKey r = none ↔ (r.month_year = none ∨ r.month_year = some "") := by
  cases hmy : r.month_year with
  | none => simp [groupKey, hmy]
  | some k =>
    simp only [groupKey, hmy]
    by_cases hk : k.data = []
    · rw [if_pos hk]
      simp [(data_eq_nil_iff k).mp hk]
    · rw [if_neg hk]
      have hkne : k ≠ "" := fun e => hk ((data_eq_nil_iff k).mpr e)
      simp [hkne]

theorem filter_groupKey_eq (rs : List Record) (m : String) (hm : m ≠ "") :
    rs.filter (fun r => groupKey r = some m) = rs.filter (fun r => r.month_year = some m) := by
  apply List.filter_congr
  intro r _
  simp only [decide_eq_decide]
  rw [groupKey_eq_some_iff]
  constructor
  · rintro ⟨h, _⟩
    exact h
  · intro h
    exact ⟨h, hm⟩

theorem filter_groupKey_none (rs : List Record) :
    rs.filter (fun r => groupKey r = none) =
      rs.filter (fun r => r.month_year = none ∨ r.month_year = some "") := by
  apply List.filter_congr
  intro r _
  simp only [decide_eq_decide]
  exact groupKey_eq_none_iff r

theorem findGroup_foldl (rs : List Record) : ∀ (acc : List (String × List Record)) (m : String),
    findGroup (rs.foldl groupStep acc) m =
      if (findGroup acc m).isSome = true ∨ rs.filter (fun r => groupKey r = some m) ≠ []
      then some (((findGroup acc m).getD []) ++ rs.filter (fun r => groupKey r = some m))
      else none := by
  induction rs with
  | nil =>
    intro acc m
    cases h : findGroup acc m <;> simp [h]
  | cons r rest ih =>
    intro acc m
    rw [List.foldl_cons, ih (groupStep acc r) m]
    cases hmy : groupKey r with
    | none =>
      have hfilt : (r :: rest).filter (fun x => groupKey x = some m) =
          rest.filter (fun x => groupKey x = some m) := by
        simp [List.filter_cons, hmy]
      rw [hfilt]
      simp [groupStep, hmy]
    | some k =>
      simp only [groupStep, hmy]
      rw [findGroup_addToGroup acc k m r]
      by_cases h : m = k
      · subst h
        have hfilt : (r :: rest).filter (fun x => groupKey x = some m) =
            r :: rest.filter (fun x => groupKey x = some m) := by
          simp [List.filter_cons, hmy]
        rw [hfilt, if_pos rfl]
        cases hacc : findGroup acc m <;> simp [hacc]
      · have h' : ¬ (some k = some m) := by simpa using fun e => h e.symm
        have hfilt : (r :: rest).filter (fun x => groupKey x = some m) =
            rest.filter (fun x => groupKey x = some m) := by
          simp [List.filter_cons, hmy, h']
        rw [hfilt, if_neg h]

theorem findGroup_groupPairs (rs : List Record) (m : String) :
    findGroup (groupPairs rs) m =
      if rs.filter (fun r => groupKey r = some m) ≠ []
      then some (rs.filter (fun r => groupKey r = some m))
      else none := by
  have h := findGroup_foldl rs [] m
  simpa [groupPairs, findGroup] using h

theorem keys_addToGroup (acc : List (String × List Record)) (m : String) (r : Record) :
    (addToGroup acc m r).map Prod.fst =
      if m ∈ acc.map Prod.fst then acc.map Prod.fst else acc.map Prod.fst ++ [m] := by
  induction acc with
  | nil => simp [addToGroup]
  | cons p rest ih =>
    obtain ⟨k, l⟩ := p
    by_cases hk : k = m
    · subst hk; simp [addToGroup]
    · have hk' : ¬ (m = k) := fun e => hk e.symm
      by_cases hm : m ∈ rest.map Prod.fst <;>
        simp [addToGroup, hk, hk', hm, ih]

theorem mem_keys_foldl (rs : List Record) : ∀ (acc : List (String × List Record)) (m : String),
    m ∈ (rs.foldl groupStep acc).map Prod.fst ↔
      m ∈ acc.map Prod.fst ∨ ∃ r ∈ rs, groupKey r = some m := by
  induction rs with
  | nil => intro acc m; simp
  | cons r rest ih =>
    intro acc m
    rw [List.foldl_cons, ih (groupStep acc r) m]
    cases hmy : groupKey r with
    | none =>
      simp only [groupStep, hmy]
      constructor
      · rintro (h | h)
        · exact Or.inl h
        · exact Or.inr (by simpa using Or.inr h)
      · rintro (h | h)
        · exact Or.inl h
        · rcases h with ⟨x, hx, hxm⟩
          rcases List.mem_cons.mp hx with he | hx'
          · rw [he] at hxm; rw [hmy] at hxm; cases hxm
          · exact Or.inr ⟨x, hx', hxm⟩
    | some k =>
      simp only [groupStep, hmy, keys_addToGroup]
      by_cases hmem : k ∈ acc.map Prod.fst
      · rw [if_pos hmem]
        constructor
        · rintro (h | h)
          · exact Or.inl h
          · rcases h with ⟨x, hx, hxm⟩
            exact Or.inr ⟨x, List.mem_cons_of_mem r hx, hxm⟩
        · rintro (h | h)
          · exact Or.inl h
          · rcases h with ⟨x, hx, hxm⟩
            rcases List.mem_cons.mp hx with he | hx'
            · rw [he, hmy] at hxm
              obtain rfl : k = m := by simpa using hxm
              exact Or.inl hmem
            · exact Or.inr ⟨x, hx', hxm⟩
      · rw [if_neg hmem]
        constructor
        · rintro (h | h)
          · rcases List.mem_append.mp h with h1 | h2
            · exact Or.inl h1
            · obtain rfl : m = k := by simpa using h2
              exact Or.inr ⟨r, List.mem_cons_self r rest, hmy⟩
          · rcases h with ⟨x, hx, hxm⟩
            exact Or.inr ⟨x, List.mem_cons_of_mem r hx, hxm⟩
        · rintro (h | h)
          · exact Or.inl (List.mem_append.mpr (Or.inl h))
          · rcases h with ⟨x, hx, hxm⟩
            rcases List.mem_cons.mp hx with he | hx'
            · rw [he, hmy] at hxm
              obtain rfl : k = m := by simpa using hxm
              exact Or.inl (List.mem_append.mpr (Or.inr (by simp)))
            · exact Or.inr ⟨x, hx', hxm⟩

theorem mem_monthKeys (rs : List Record) (m : String) :
    m ∈ monthKeys rs ↔ ∃ r ∈ rs, groupKey r = some m := by
  have h := mem_keys_foldl rs [] m
  simpa [monthKeys, groupPairs] using h

theorem mem_monthKeys_month_year (rs : List Record) (m : String) :
    m ∈ monthKeys rs ↔ (m ≠ "" ∧ ∃ r ∈ rs, r.month_year = some m) := by
  rw [mem_monthKeys]
  constructor
  · rintro ⟨r, hr, hk⟩
    rcases (groupKey_eq_some_iff r m).mp hk with ⟨h1, h2⟩
    exact ⟨h2, r, hr, h1⟩
  · rintro ⟨hm, r, hr, h1⟩
    exact ⟨r, hr, (groupKey_eq_some_iff r m).mpr ⟨h1, hm⟩⟩

theorem nodup_keys_foldl (rs : List Record) : ∀ (acc : List (String × List Record)),
    (acc.map Prod.fst).Nodup → ((rs.foldl groupStep acc).map Prod.fst).Nodup := by
  induction rs with
  | nil => intro acc h; exact h
  | cons r rest ih =>
    intro acc h
    rw [List.foldl_cons]
    refine ih (groupStep acc r) ?_
    cases hmy : groupKey r with
    | none => simpa [groupStep, hmy] using h
    | some k =>
      simp only [groupStep, hmy, keys_addToGroup]
      by_cases hmem : k ∈ acc.map Prod.fst
      · rw [if_pos hmem]; exact h
      · rw [if_neg hmem]
        refine List.Nodup.append h (List.nodup_singleton k) ?_
        intro a ha hak
        rw [List.mem_singleton] at hak
        exact hmem (hak ▸ ha)

theorem monthKeys_nodup (rs : List Record) : (monthKeys rs).Nodup :=
  nodup_keys_foldl rs [] (by simp)

theorem findTotals_map (g : List (String × List Record)) (m : String) :
    findTotals (g.map (fun p => (p.1, totalsOf p.2))) m = (findGroup g m).map totalsOf := by
  induction g with
  | nil => rfl
  | cons p rest ih =>
    obtain ⟨k, l⟩ := p
    by_cases h : k = m <;> simp [findTotals, findGroup, h, ih]

theorem sum_addToGroup (f : Record → ℚ) (acc : List (String × List Record)) (m : String)
    (r : Record) :
    ((addToGroup acc m r).map (fun p => (p.2.map f).sum)).sum =
      ((acc.map (fun p => (p.2.map f).sum)).sum) + f r := by
  induction acc with
  | nil => simp [addToGroup]
  | cons p rest ih =>
    obtain ⟨k, l⟩ := p
    by_cases hk : k = m
    · subst hk
      simp [addToGroup]
      ring
    · simp [addToGroup, hk, ih]
      ring

theorem sum_groups_foldl (f : Record → ℚ) (rs : List Record) :
    ∀ (acc : List (String × List Record)),
    ((rs.foldl groupStep acc).map (fun p => (p.2.map f).sum)).sum =
      ((acc.map (fun p => (p.2.map f).sum)).sum) +
        ((rs.filter (fun r => (groupKey r).isSome)).map f).sum := by
  induction rs with
  | nil => intro acc; simp
  | cons r rest ih =>
    intro acc
    rw [List.foldl_cons, ih (groupStep acc r)]
    cases hmy : groupKey r with
    | none => simp [groupStep, hmy, List.filter_cons]
    | some k =>
      simp only [groupStep, hmy]
      rw [sum_addToGroup f acc k r]
      have hfilt : (r :: rest).filter (fun x => (groupKey x).isSome) =
          r :: rest.filter (fun x => (groupKey x).isSome) := by
        simp [List.filter_cons, hmy]
      rw [hfilt]
      simp
      ring

theorem sum_filter_partition (f : Record → ℚ) (rs : List Record) :
    ((rs.filter (fun r => (groupKey r).isSome)).map f).sum +
      ((rs.filter (fun r => groupKey r = none)).map f).sum = (rs.map f).sum := by
  induction rs with
  | nil => simp
  | cons r rest ih =>
    cases hmy : groupKey r <;>
      simp [List.filter_cons, hmy, ← ih] <;> ring

theorem sum_groups (f : Record → ℚ) (rs : List Record) :
    ((groupPairs rs).map (fun p => (p.2.map f).sum)).sum =
      ((rs.filter (fun r => (groupKey r).isSome)).map f).sum := by
  have h := sum_groups_foldl f rs []
  simpa [groupPairs] using h

theorem grand_partition (f : Record → ℚ) (rs : List Record) :
    (rs.map f).sum = ((groupPairs rs).map (fun p => (p.2.map f).sum)).sum +
      ((rs.filter (fun r => r.month_year = none ∨ r.month_year = some "")).map f).sum := by
  rw [sum_groups, ← filter_groupKey_none]
  exact (sum_filter_partition f rs).symm

/-! ### Claim theorem C4 -/

/-- **C4.** Aggregation excludes every record whose period key is falsy
(NULL or empty — the code's truthiness test) from the period groups, the
period totals and the sorted period list; each period's group is exactly the
records carrying that key and its totals are the sums of their distances and
calories (absent values counting 0); grand totals are the sums over *all*
records, those without a truthy period key included; and on the spec's
example the `01-2024` totals are distance 8 (and calories 480). -/
theorem C4_aggregation :
    (∀ (rs : List Record) (m : String) (l : List Record),
      findGroup (groupPairs rs) m = some l →
      l = rs.filter (fun r => r.month_year = some m)) ∧
    (∀ (rs : List Record) (m : String),
      m ∈ monthKeys rs ↔ (m ≠ "" ∧ ∃ r ∈ rs, r.month_year = some m)) ∧
    (∀ (rs : List Record) (m : String) (t : ℚ × ℚ),
      findTotals (monthlyTotals rs) m = some t →
      t = (((rs.filter (fun r => r.month_year = some m)).map (fun r => r.distance.getD 0)).sum,
           ((rs.filter (fun r => r.month_year = some m)).map (fun r => r.calories.getD 0)).sum)) ∧
    (∀ rs : List Record,
      totalDistance rs =
        ((monthlyTotals rs).map (fun p => p.2.1)).sum +
          totalDistance (rs.filter (fun r => r.month_year = none ∨ r.month_year = some "")) ∧
      totalCalories rs =
        ((monthlyTotals rs).map (fun p => p.2.2)).sum +
          totalCalories (rs.filter (fun r => r.month_year = none ∨ r.month_year = some ""))) ∧
    (∀ (rs : List Record) (l : List String), sortedMonthsE rs = Except.ok l →
      ∀ m ∈ l, m ≠ "" ∧ ∃ r ∈ rs, r.month_year = some m) ∧
    findTotals (monthlyTotals exampleRecs) "01-2024" = some (8, 480) := by
  refine ⟨?_, ?_, ?_, ?_, ?_, ?_⟩
  · intro rs m l h
    rw [findGroup_groupPairs] at h
    split at h
    · next hne =>
      obtain ⟨x, hx⟩ := List.exists_mem_of_ne_nil _ hne
      have hgk : groupKey x = some m := by
        simpa using (List.mem_filter.mp hx).2
      have hmne : m ≠ "" := ((groupKey_eq_some_iff x m).mp hgk).2
      have hl : l = rs.filter (fun r => groupKey r = some m) :=
        (Option.some.injEq _ _ ▸ h).symm
      rw [hl, filter_groupKey_eq rs m hmne]
    · cases h
  · exact mem_monthKeys_month_year
  · intro rs m t h
    unfold monthlyTotals at h
    rw [findTotals_map] at h
    cases hg : findGroup (groupPairs rs) m with
    | none => rw [hg] at h; cases h
    | some l =>
      rw [hg] at h
      rw [findGroup_groupPairs] at hg
      split at hg
      · next hne =>
        obtain ⟨x, hx⟩ := List.exists_mem_of_ne_nil _ hne
        have hgk : groupKey x = some m := by
          simpa using (List.mem_filter.mp hx).2
        have hmne : m ≠ "" := ((groupKey_eq_some_iff x m).mp hgk).2
        have hl : l = rs.filter (fun r => groupKey r = some m) :=
          (Option.some.injEq _ _ ▸ hg).symm
        have ht : t = totalsOf l := by
          simpa using h.symm
        rw [ht, hl, filter_groupKey_eq rs m hmne]
        rfl
      · cases hg
  · intro rs
    constructor
    · have hmap : (monthlyTotals rs).map (fun p => p.2.1) =
          (groupPairs rs).map (fun p => (p.2.map (fun r => r.distance.getD 0)).sum) := by
        unfold monthlyTotals
        rw [List.map_map]
        rfl
      rw [hmap]
      exact grand_partition (fun r => r.distance.getD 0) rs
    · have hmap : (monthlyTotals rs).map (fun p => p.2.2) =
          (groupPairs rs).map (fun p => (p.2.map (fun r => r.calories.getD 0)).sum) := by
        unfold monthlyTotals
        rw [List.map_map]
        rfl
      rw [hmap]
      exact grand_partition (fun r => r.calories.getD 0) rs
  · intro rs l hok m hm
    simp only [sortedMonthsE] at hok
    split at hok
    · injection hok with hok
      subst hok
      rcases List.mem_map.mp hm with ⟨pr, hpr, rfl⟩
      have hpr2 : pr ∈ (monthKeys rs).map (fun k => (k, (strptime_mY k).getD (0, 0))) :=
        (List.mergeSort_perm _ keyPairLe).subset hpr
      rcases List.mem_map.mp hpr2 with ⟨k, hk, rfl⟩
      exact (mem_monthKeys_month_year rs k).mp hk
    · cases hok
  · simp [exampleRecs, monthlyTotals, groupPairs, groupStep, groupKey, addToGroup, findTotals,
      totalsOf]
    norm_num

/-- **C4 witness:** the totals implication applied at the spec's example
record set and its `01-2024` totals. -/
theorem C4_aggregation_witness :
    ((8 : ℚ), (480 : ℚ)) =
      (((exampleRecs.filter (fun r => r.month_year = some "01-2024")).map
          (fun r => r.distance.getD 0)).sum,
       ((exampleRecs.filter (fun r => r.month_year = some "01-2024")).map
          (fun r => r.calories.getD 0)).sum) :=
  C4_aggregation.2.2.1 exampleRecs "01-2024" (8, 480) C4_aggregation.2.2.2.2.2

/-! ### Helper lemmas: sorting the month keys -/

theorem keyPairLe_trans (a b c : String × (ℕ × ℕ))
    (h1 : keyPairLe a b = true) (h2 : keyPairLe b c = true) : keyPairLe a c = true := by
  simp only [keyPairLe, decide_eq_true_eq] at h1 h2 ⊢
  omega

theorem keyPairLe_total (a b : String × (ℕ × ℕ)) :
    (keyPairLe a b || keyPairLe b a) = true := by
  simp only [keyPairLe, Bool.or_eq_true, decide_eq_true_eq]
  omega

theorem perm_pair {α : Type _} [DecidableEq α] {l : List α} {a b : α} (h : l.Perm [a, b]) :
    l = [a, b] ∨ l = [b, a] := by
  have hlen : l.length = 2 := by simpa using h.length_eq
  rcases l with _ | ⟨x, _ | ⟨y, _ | ⟨z, t⟩⟩⟩
  · simp at hlen
  · simp at hlen
  · have hx : x = a ∨ x = b := by simpa using h.subset (List.mem_cons_self x [y])
    have hy : y = a ∨ y = b := by simpa using h.subset (by simp)
    rcases hx with hxa | hxb
    · rcases hy with hya | hyb
      · by_cases hba : b = a
        · rw [hxa, hya, hba]
          exact Or.inl rfl
        · exfalso
          have hc := h.count_eq a
          rw [hxa, hya] at hc
          simp [List.count_cons, hba] at hc
      · rw [hxa, hyb]
        exact Or.inl rfl
    · rcases hy with hya | hyb
      · rw [hxb, hya]
        exact Or.inr rfl
      · by_cases hab : a = b
        · rw [hxb, hyb, hab]
          exact Or.inl rfl
        · exfalso
          have hc := h.count_eq b
          rw [hxb, hyb] at hc
          simp [List.count_cons, hab] at hc
  · simp at hlen

theorem sortedMonthsE_ok (rs : List Record)
    (hall : ∀ k ∈ monthKeys rs, (strptime_mY k).isSome = true) :
    sortedMonthsE rs =
      Except.ok (((decoratedKeys rs).mergeSort keyPairLe).map Prod.fst) := by
  simp only [sortedMonthsE]
  rw [if_pos (List.all_eq_true.mpr hall)]

theorem decoratedKeys_fst (rs : List Record) :
    (decoratedKeys rs).map Prod.fst = monthKeys rs := by
  unfold decoratedKeys
  rw [List.map_map]
  exact List.map_id (monthKeys rs)

theorem sortedMonths_spec (rs : List Record)
    (hall : ∀ k ∈ monthKeys rs, (strptime_mY k).isSome = true) :
    ∃ l, sortedMonthsE rs = Except.ok l ∧ l.Perm (monthKeys rs) ∧ l.Nodup ∧
      l.Pairwise (fun a b => ∀ ya ma yb mb, strptime_mY a = some (ya, ma) →
        strptime_mY b = some (yb, mb) → yb < ya ∨ (yb = ya ∧ mb ≤ ma)) := by
  have hperm : ((((decoratedKeys rs).mergeSort keyPairLe).map Prod.fst)).Perm (monthKeys rs) := by
    have h1 : (((decoratedKeys rs).mergeSort keyPairLe).map Prod.fst).Perm
        ((decoratedKeys rs).map Prod.fst) :=
      (List.mergeSort_perm (decoratedKeys rs) keyPairLe).map Prod.fst
    rw [decoratedKeys_fst rs] at h1
    exact h1
  have hpair : (((decoratedKeys rs).mergeSort keyPairLe).map Prod.fst).Pairwise
      (fun a b => ∀ ya ma yb mb, strptime_mY a = some (ya, ma) →
        strptime_mY b = some (yb, mb) → yb < ya ∨ (yb = ya ∧ mb ≤ ma)) := by
    have hsorted : ((decoratedKeys rs).mergeSort keyPairLe).Pairwise
        (fun p q => keyPairLe p q = true) :=
      List.sorted_mergeSort keyPairLe_trans keyPairLe_total (decoratedKeys rs)
    have hmem : ∀ p ∈ (decoratedKeys rs).mergeSort keyPairLe,
        p.2 = (strptime_mY p.1).getD (0, 0) := by
      intro p hp
      have hp2 : p ∈ decoratedKeys rs :=
        (List.mergeSort_perm (decoratedKeys rs) keyPairLe).subset hp
      rcases List.mem_map.mp hp2 with ⟨k, _, rfl⟩
      rfl
    rw [List.pairwise_map]
    refine hsorted.imp_of_mem ?_
    intro p q hp hq hle ya ma yb mb hpa hqb
    have hp2 := hmem p hp
    have hq2 := hmem q hq
    rw [hpa] at hp2
    rw [hqb] at hq2
    simp only [Option.getD_some] at hp2 hq2
    simp only [keyPairLe, hp2, hq2, decide_eq_true_eq] at hle
    exact hle
  exact ⟨_, sortedMonthsE_ok rs hall, hperm,
    hperm.nodup_iff.mpr (monthKeys_nodup rs), hpair⟩

/-! ### Claim theorem C5 -/

/-- **C5.** For every record set whose period keys are all present (and of
parseable `MM-YYYY` shape, the precondition C10 identifies), the sorted
period list succeeds and lists the distinct period keys in descending
calendar order of year and month, with no tie-break needed since each key
appears once; in particular the example periods `01-2024` (twice) and
`02-2024` come out as `["02-2024", "01-2024"]`. -/
theorem C5_sorted_periods :
    (∀ rs : List Record,
      (∀ r ∈ rs, r.month_year ≠ none) →
      (∀ k ∈ monthKeys rs, (strptime_mY k).isSome = true) →
      ∃ l, sortedMonthsE rs = Except.ok l ∧ l.Perm (monthKeys rs) ∧
        (monthKeys rs).Nodup ∧ l.Nodup ∧
        l.Pairwise (fun a b => ∀ ya ma yb mb, strptime_mY a = some (ya, ma) →
          strptime_mY b = some (yb, mb) → yb < ya ∨ (yb = ya ∧ mb ≤ ma))) ∧
    sortedMonthsE exampleRecs = Except.ok ["02-2024", "01-2024"] := by
  have main : ∀ rs : List Record,
      (∀ r ∈ rs, r.month_year ≠ none) →
      (∀ k ∈ monthKeys rs, (strptime_mY k).isSome = true) →
      ∃ l, sortedMonthsE rs = Except.ok l ∧ l.Perm (monthKeys rs) ∧
        (monthKeys rs).Nodup ∧ l.Nodup ∧
        l.Pairwise (fun a b => ∀ ya ma yb mb, strptime_mY a = some (ya, ma) →
          strptime_mY b = some (yb, mb) → yb < ya ∨ (yb = ya ∧ mb ≤ ma)) := by
    intro rs _ hall
    obtain ⟨l, hok, hperm, hnodup, hpair⟩ := sortedMonths_spec rs hall
    exact ⟨l, hok, hperm, monthKeys_nodup rs, hnodup, hpair⟩
  refine ⟨main, ?_⟩
  obtain ⟨l, hok, hperm, _, _, hpair⟩ := main exampleRecs (by decide) (by decide)
  have hk : monthKeys exampleRecs = ["01-2024", "02-2024"] := by decide
  rw [hk] at hperm
  rcases perm_pair hperm with rfl | rfl
  · exfalso
    have h12 := (List.pairwise_cons.mp hpair).1 "02-2024" (List.mem_singleton.mpr rfl)
    have := h12 2024 1 2024 2 (by decide) (by decide)
    omega
  · exact hok

/-- **C5 witness:** the general statement applied to the example record set. -/
theorem C5_sorted_periods_witness :
    ∃ l, sortedMonthsE exampleRecs = Except.ok l ∧ l.Perm (monthKeys exampleRecs) ∧
      (monthKeys exampleRecs).Nodup ∧ l.Nodup ∧
      l.Pairwise (fun a b => ∀ ya ma yb mb, strptime_mY a = some (ya, ma) →
        strptime_mY b = some (yb, mb) → yb < ya ∨ (yb = ya ∧ mb ≤ ma)) :=
  C5_sorted_periods.1 exampleRecs (by decide) (by decide)

/-! ### Claim theorem C10 -/

/-- **C10.** The month sort parses every present period key with the strict
`%m-%Y` format, but only keys that survive the grouping loop's truthiness
test reach it: when every present non-empty period key parses, the list view
runs to completion (an empty-string key is skipped before the sort, so it
also renders); a record set holding a present, non-empty, non-parseable
period key makes the sort raise (modelled as `Except.error`) instead of
producing a page. -/
theorem C10_sort_strict_format :
    (∀ store : List Record,
      (∀ r ∈ store, ∀ m, r.month_year = some m → m ≠ "" → (strptime_mY m).isSome = true) →
      (homeView store).isOk = true) ∧
    (∃ store : List Record,
      (∃ r ∈ store, ∃ m, r.month_year = some m ∧ strptime_mY m = none) ∧
      homeView store = Except.error ()) ∧
    (homeView [⟨1, some "01-01-2024", none, none, none, none, none, some ""⟩]).isOk
      = true := by
  refine ⟨?_, ?_, ?_⟩
  · intro store hstore
    have hall : ∀ k ∈ monthKeys (sortedStore store), (strptime_mY k).isSome = true := by
      intro k hk
      rcases (mem_monthKeys_month_year _ _).mp hk with ⟨hne, r, hr, hrm⟩
      have hr' : r ∈ store := ((List.mergeSort_perm store homeLe).mem_iff).mp hr
      exact hstore r hr' k hrm hne
    simp only [homeView, sortedMonthsE_ok (sortedStore store) hall]
    rfl
  · refine ⟨[⟨1, some "01-01-2024", none, none, none, none, none, some "bad"⟩],
      ⟨⟨1, some "01-01-2024", none, none, none, none, none, some "bad"⟩,
        List.mem_singleton.mpr rfl, "bad", rfl, by decide⟩, ?_⟩
    have hmem : "bad" ∈ monthKeys (sortedStore
        [⟨1, some "01-01-2024", none, none, none, none, none, some "bad"⟩]) := by
      refine (mem_monthKeys _ _).mpr
        ⟨⟨1, some "01-01-2024", none, none, none, none, none, some "bad"⟩, ?_, by decide⟩
      exact ((List.mergeSort_perm _ homeLe).mem_iff).mpr (List.mem_singleton.mpr rfl)
    have hguard : (monthKeys (sortedStore
        [⟨1, some "01-01-2024", none, none, none, none, none, some "bad"⟩])).all
          (fun k => (strptime_mY k).isSome) = false :=
      List.all_eq_false.mpr ⟨"bad", hmem, by decide⟩
    have hsm : sortedMonthsE (sortedStore
        [⟨1, some "01-01-2024", none, none, none, none, none, some "bad"⟩]) =
        Except.error () := by
      simp only [sortedMonthsE]
      rw [if_neg (by simp [hguard])]
    simp only [homeView, hsm]
  · have hs : sortedStore [⟨1, some "01-01-2024", none, none, none, none, none, some ""⟩] =
        [⟨1, some "01-01-2024", none, none, none, none, none, some ""⟩] := by
      unfold sortedStore
      exact List.mergeSort_singleton _
    have hall : ∀ k ∈ monthKeys (sortedStore
        [⟨1, some "01-01-2024", none, none, none, none, none, some ""⟩]),
        (strptime_mY k).isSome = true := by
      rw [hs]
      intro k hk
      have hempty : monthKeys [⟨1, some "01-01-2024", none, none, none, none, none,
          some ""⟩] = [] := by decide
      rw [hempty] at hk
      cases hk
    simp only [homeView, sortedMonthsE_ok _ hall]
    rfl

/-- **C10 witness:** the well-formed half applied to the example record set. -/
theorem C10_sort_strict_format_witness :
    (homeView exampleRecs).isOk = true :=
  C10_sort_strict_format.1 exampleRecs (by decide)

/-! ### Helper lemmas: SQLite ordering of the listing -/

theorem char_toNat_inj {c d : Char} (h : c.toNat = d.toNat) : c = d := by
  rcases c with ⟨⟨cv, hc⟩, hvc⟩
  rcases d with ⟨⟨dv, hd⟩, hvd⟩
  simp [Char.toNat, UInt32.toNat] at h
  simp_all

theorem lexLe_refl (l : List Char) : lexLe l l = true := by
  induction l with
  | nil => rfl
  | cons c t ih => simp [lexLe, ih]

theorem lexLe_total (x : List Char) : ∀ y, (lexLe x y || lexLe y x) = true := by
  induction x with
  | nil => intro y; simp [lexLe]
  | cons c t ih =>
    intro y
    cases y with
    | nil => simp [lexLe]
    | cons d u =>
      by_cases hcd : c = d
      · subst hcd
        simpa [lexLe] using ih u
      · have hdc : ¬ d = c := fun e => hcd e.symm
        simp only [lexLe, if_neg hcd, if_neg hdc, Bool.or_eq_true, decide_eq_true_eq]
        have hne : c.toNat ≠ d.toNat := fun e => hcd (char_toNat_inj e)
        omega

theorem lexLe_trans (x : List Char) :
    ∀ y z, lexLe x y = true → lexLe y z = true → lexLe x z = true := by
  induction x with
  | nil => intro y z _ _; rfl
  | cons c t ih =>
    intro y z h1 h2
    cases y with
    | nil => simp [lexLe] at h1
    | cons d u =>
      cases z with
      | nil => simp [lexLe] at h2
      | cons e v =>
        by_cases hcd : c = d
        · subst hcd
          simp only [lexLe, if_pos rfl] at h1
          by_cases hce : c = e
          · subst hce
            simp only [lexLe, if_pos rfl] at h2 ⊢
            exact ih u v h1 h2
          · simp only [lexLe, if_neg hce] at h2 ⊢
            exact h2
        · simp only [lexLe, if_neg hcd, decide_eq_true_eq] at h1
          by_cases hde : d = e
          · subst hde
            simp only [lexLe, if_neg hcd, decide_eq_true_eq]
            exact h1
          · simp only [lexLe, if_neg hde, decide_eq_true_eq] at h2
            have hce : ¬ c = e := by
              intro he
              subst he
              omega
            simp only [lexLe, if_neg hce, decide_eq_true_eq]
            omega

theorem lexLe_antisymm (x : List Char) :
    ∀ y, lexLe x y = true → lexLe y x = true → x = y := by
  induction x with
  | nil =>
    intro y h1 h2
    cases y with
    | nil => rfl
    | cons d u => simp [lexLe] at h2
  | cons c t ih =>
    intro y h1 h2
    cases y with
    | nil => simp [lexLe] at h1
    | cons d u =>
      by_cases hcd : c = d
      · subst hcd
        simp only [lexLe, if_pos rfl] at h1 h2
        rw [ih u h1 h2]
      · have hdc : ¬ d = c := fun e => hcd e.symm
        simp only [lexLe, if_neg hcd, decide_eq_true_eq] at h1
        simp only [lexLe, if_neg hdc, decide_eq_true_eq] at h2
        exfalso
        omega

theorem dateLe_refl (a : Option String) : dateLe a a = true := by
  cases a with
  | none => rfl
  | some s => exact lexLe_refl s.data

theorem dateLe_total (a b : Option String) : (dateLe a b || dateLe b a) = true := by
  cases a with
  | none => rfl
  | some x =>
    cases b with
    | none => simp [dateLe]
    | some y => simpa [dateLe] using lexLe_total x.data y.data

theorem dateLe_trans (a b c : Option String)
    (h1 : dateLe a b = true) (h2 : dateLe b c = true) : dateLe a c = true := by
  cases a with
  | none => rfl
  | some x =>
    cases b with
    | none => simp [dateLe] at h1
    | some y =>
      cases c with
      | none => simp [dateLe] at h2
      | some z => exact lexLe_trans x.data y.data z.data h1 h2

theorem dateLe_antisymm (a b : Option String)
    (h1 : dateLe a b = true) (h2 : dateLe b a = true) : a = b := by
  cases a with
  | none =>
    cases b with
    | none => rfl
    | some y => simp [dateLe] at h2
  | some x =>
    cases b with
    | none => simp [dateLe] at h1
    | some y =>
      have hd : x.data = y.data := lexLe_antisymm x.data y.data h1 h2
      cases x
      cases y
      simp_all

theorem homeLe_total (a b : Record) : (homeLe a b || homeLe b a) = true := by
  unfold homeLe
  by_cases h : a.date = b.date
  · rw [if_pos h, if_pos h.symm]
    simp only [Bool.or_eq_true, decide_eq_true_eq]
    omega
  · rw [if_neg h, if_neg (fun e => h e.symm)]
    exact dateLe_total b.date a.date

theorem homeLe_trans (a b c : Record)
    (h1 : homeLe a b = true) (h2 : homeLe b c = true) : homeLe a c = true := by
  unfold homeLe at h1 h2 ⊢
  by_cases hab : a.date = b.date <;> by_cases hbc : b.date = c.date
  · have hac : a.date = c.date := hab.trans hbc
    rw [if_pos hab] at h1
    rw [if_pos hbc] at h2
    rw [if_pos hac]
    simp only [decide_eq_true_eq] at h1 h2 ⊢
    omega
  · have hac : ¬ a.date = c.date := fun e => hbc (hab.symm.trans e)
    rw [if_pos hab] at h1
    rw [if_neg hbc] at h2
    rw [← hab] at h2
    rw [if_neg hac]
    exact h2
  · have hac : ¬ a.date = c.date := fun e => hab (e.trans hbc.symm)
    rw [if_neg hab] at h1
    rw [if_pos hbc] at h2
    rw [if_neg hac]
    rw [hbc] at h1
    exact h1
  · rw [if_neg hab] at h1
    rw [if_neg hbc] at h2
    by_cases hac : a.date = c.date
    · exfalso
      rw [← hac] at h2
      exact hab (dateLe_antisymm a.date b.date h2 h1)
    · rw [if_neg hac]
      exact dateLe_trans c.date b.date a.date h2 h1

/-! ### Claim theorem C9 -/

/-- **C9.** The list-view query returns a permutation of the stored records
ordered by the date column descending (SQLite text order, NULL last under
`DESC`) with id descending as the tiebreak among equal dates. -/
theorem C9_listing_order (store : List Record) :
    (sortedStore store).Perm store ∧
    (sortedStore store).Pairwise (fun a b =>
      dateLe b.date a.date = true ∧ (a.date = b.date → b.id ≤ a.id)) := by
  constructor
  · exact List.mergeSort_perm store homeLe
  · have hs := List.sorted_mergeSort homeLe_trans homeLe_total store
    refine hs.imp ?_
    intro a b hab
    unfold homeLe at hab
    by_cases h : a.date = b.date
    · rw [if_pos h] at hab
      refine ⟨h ▸ dateLe_refl a.date, fun _ => ?_⟩
      simpa using hab
    · rw [if_neg h] at hab
      exact ⟨hab, fun e => absurd e h⟩

/-- **C9 witness:** the ordering statement instantiated at the example
record set. -/
theorem C9_listing_order_witness :
    (sortedStore exampleRecs).Perm exampleRecs ∧
    (sortedStore exampleRecs).Pairwise (fun a b =>
      dateLe b.date a.date = true ∧ (a.date = b.date → b.id ≤ a.id)) :=
  C9_listing_order exampleRecs
